import Mathlib

/-!
Verification development for the Quinthesis council pipeline.

The council module (`backend/council.py`) only appears in the repository
through its unit tests and its callers in `backend/main.py`; the ranking
parser, rank aggregator and orchestrator are therefore modelled here from
the specification (each such definition carries a doc comment starting
with `Modelled from the spec:`).  The request-validation and endpoint
control flow are embedded from `backend/main.py` itself.
-/

namespace Quinthesis

/-! ## Ranking parser (spec §4.3) -/

/-- The case-sensitive section marker searched for in judge output. -/
def markerL : List Char := ("FINAL RANKING:").toList

/-- The literal word "Response" followed by one space: a label is this
pattern followed by a single letter. -/
def respPat : List Char := ("Response ").toList

/-- Horizontal whitespace admitted between tokens of a numbered line. -/
def isWsChar (c : Char) : Bool := (c == ' ') || (c == '\t') || (c == '\r')

/-- Decimal digit test for the numbering of a ranking line. -/
def isDigitChar (c : Char) : Bool := ('0' ≤ c) && (c ≤ '9')

/-- The letter token of a label is a single upper-case letter. -/
def isUpperAZ (c : Char) : Bool := ('A' ≤ c) && (c ≤ 'Z')

/-- `leadsWith pat l` holds when `pat` is an initial segment of `l`. -/
def leadsWith : List Char → List Char → Bool
  | [], _ => true
  | _ :: _, [] => false
  | p :: ps, c :: cs => (p == c) && leadsWith ps cs

/-- Text strictly after the first occurrence of `pat`, if `pat` occurs. -/
def afterSeq (pat : List Char) : List Char → Option (List Char)
  | [] => none
  | c :: cs =>
    if leadsWith pat (c :: cs) then some (List.drop pat.length (c :: cs))
    else afterSeq pat cs

/-- Modelled from the spec: the parsing window is the text after the
"FINAL RANKING:" marker when the marker occurs, otherwise the whole text. -/
def windowOf (s : List Char) : List Char :=
  match afterSeq markerL s with
  | some w => w
  | none => s

/-- Reads a label at the head of the text: the literal pattern
"Response " followed by a single upper-case letter; the letter is returned. -/
def headLabel (l : List Char) : Option Char :=
  if leadsWith respPat l then
    match List.drop respPat.length l with
    | [] => none
    | c :: _ => if isUpperAZ c then some c else none
  else none

/-- Left-to-right scan collecting the letter of every occurrence of a
"Response <letter>" pattern. -/
def scanLabels : List Char → List Char
  | [] => []
  | c :: cs => (headLabel (c :: cs)).toList ++ scanLabels cs

/-- Modelled from the spec: a numbered-list line is leading whitespace,
one or more digits, a dot, optional whitespace and a label; the numeric
value itself is ignored. Returns the label letter when the line matches. -/
def parseNumberedLine (l : List Char) : Option Char :=
  let l1 := l.dropWhile isWsChar
  let ds := l1.takeWhile isDigitChar
  match l1.dropWhile isDigitChar with
  | [] => none
  | c :: r2 =>
    if ds.isEmpty then none
    else if c == '.' then headLabel (r2.dropWhile isWsChar) else none

/-- Prepends a character to the first line of a line list. -/
def consHead (c : Char) : List (List Char) → List (List Char)
  | [] => [[c]]
  | l :: ls => (c :: l) :: ls

/-- Splits text into lines at newline characters. -/
def breakLines : List Char → List (List Char)
  | [] => [[]]
  | c :: cs => if c == '\n' then [] :: breakLines cs else consHead c (breakLines cs)

/-- Labels of all numbered-list lines of the window, in order of
appearance in the text. -/
def numberedLabels (w : List Char) : List Char :=
  (breakLines w).filterMap parseNumberedLine

/-- Keeps the first occurrence of every element, dropping later
duplicates; `seen` accumulates elements already emitted. -/
def firstOccur {α : Type} [DecidableEq α] : List α → List α → List α
  | [], _ => []
  | c :: cs, seen =>
    if c ∈ seen then firstOccur cs seen else c :: firstOccur cs (c :: seen)

/-- Modelled from the spec: the ranking parser over the character list.
First the numbered-list lines of the window are read; if none match, the
window is scanned for every "Response <letter>" occurrence in
first-occurrence order without duplicates. -/
def parseCore (s : List Char) : List Char :=
  if (numberedLabels (windowOf s)).isEmpty then
    firstOccur (scanLabels (windowOf s)) []
  else numberedLabels (windowOf s)

/-- The label string of a letter: "Response A", "Response B", ... -/
def labelStr (c : Char) : String := ("Response ").push c

/-- Modelled from the spec: `parse_ranking_from_text` of the council
module, absent from the sources; converts one judge's free text into an
ordered list of labels, never failing. -/
def parse_ranking_from_text (s : String) : List String :=
  (parseCore s.toList).map labelStr

/-! ## Rank aggregator (spec §4.4) -/

/-- One judge's stage-2 output: the judging model and its raw ranking text. -/
structure JudgeRanking where
  model : String
  raw_text : String
deriving DecidableEq

/-- The cached parsed order of a judge's ranking, derived from the raw text. -/
def parsedOrder (r : JudgeRanking) : List String :=
  parse_ranking_from_text r.raw_text

/-- One consensus entry: the model, its mean 1-indexed rank, and the
number of rankings that mentioned it. -/
structure AggregateEntry where
  model : String
  average_rank : ℚ
  rankings_count : ℕ
deriving DecidableEq

/-- First-match association-list lookup, the map from labels to models. -/
def lookupStr (k : String) : List (String × String) → Option String
  | [] => none
  | p :: ps => if p.1 = k then some p.2 else lookupStr k ps

/-- 1-indexed positions (starting at `i`) of the occurrences of `lbl`. -/
def occPosAux (lbl : String) : List String → ℕ → List ℕ
  | [], _ => []
  | x :: xs, i =>
    if x = lbl then i :: occPosAux lbl xs (i + 1) else occPosAux lbl xs (i + 1)

/-- 1-indexed positions of `lbl` within one parsed order. -/
def occPositions (lbl : String) (order : List String) : List ℕ :=
  occPosAux lbl order 1

/-- All 1-indexed positions assigned to `lbl` across the judges. -/
def ratingPositions (lbl : String) (rs : List JudgeRanking) : List ℕ :=
  rs.flatMap (fun r => occPositions lbl (parsedOrder r))

/-- Every label mentioned by some judge, in order of first mention. -/
def allMentioned (rs : List JudgeRanking) : List String :=
  firstOccur (rs.flatMap parsedOrder) []

/-- The aggregate entry of one label: discarded when the label is absent
from the label-to-model map or mentioned by no judge. -/
def entryFor (rs : List JudgeRanking) (l2m : List (String × String))
    (lbl : String) : Option AggregateEntry :=
  match lookupStr lbl l2m with
  | none => none
  | some m =>
    let ps := ratingPositions lbl rs
    if ps.isEmpty then none
    else some ⟨m, (ps.sum : ℚ) / (ps.length : ℚ), ps.length⟩

/-- Ordering of aggregate entries by average rank, ascending. -/
def entryLE (a b : AggregateEntry) : Prop := a.average_rank ≤ b.average_rank

instance : DecidableRel entryLE := fun a b =>
  inferInstanceAs (Decidable (a.average_rank ≤ b.average_rank))

instance : IsTotal AggregateEntry entryLE :=
  ⟨fun a b => le_total a.average_rank b.average_rank⟩

instance : IsTrans AggregateEntry entryLE :=
  ⟨fun _ _ _ h1 h2 => le_trans h1 h2⟩

/-- Stable ascending sort of the aggregate by average rank. -/
def sortEntries (l : List AggregateEntry) : List AggregateEntry :=
  List.insertionSort entryLE l

/-- Modelled from the spec: `calculate_aggregate_rankings` of the council
module, absent from the sources; combines all judges' parsed orders into
one consensus ordering sorted ascending by average rank. -/
def calculate_aggregate_rankings (rs : List JudgeRanking)
    (l2m : List (String × String)) : List AggregateEntry :=
  sortEntries ((allMentioned rs).filterMap (entryFor rs l2m))

/-! ## Orchestrator, anonymizer and title generator (spec §4.1, §4.2, §4.5) -/

/-- Outcome of one inference call after the collaborator's retry policy. -/
inductive CallResult where
  | success (content : String) (usage : Option String)
  | failure
deriving DecidableEq

/-- One member's stage-1 answer. -/
structure MemberAnswer where
  model : String
  content : String
  usage : Option String
deriving DecidableEq

/-- Stage-3 terminal artifact. -/
structure SynthesisResult where
  content : String
  model : String
  usage : Option String
deriving DecidableEq

/-- The artifact bundle of a successful run. -/
structure Bundle where
  stage1 : List MemberAnswer
  stage2 : List JudgeRanking
  stage3 : SynthesisResult
  aggregate : List AggregateEntry
  usage_ids : List String
deriving DecidableEq

/-- Typed run-level failures of the pipeline. -/
inductive CouncilError where
  | insufficientCandidates
  | synthesisFailure
deriving DecidableEq

/-- Modelled from the spec: stage-1 surviving answers in declared member
order; a member whose call fails terminally is dropped. -/
def survivors (members : List String) (oracle : String → CallResult) :
    List MemberAnswer :=
  members.filterMap (fun m =>
    match oracle m with
    | CallResult.success c u => some ⟨m, c, u⟩
    | CallResult.failure => none)

/-- The fixed ordered label alphabet. -/
def alphabet : List Char := ("ABCDEFGHIJKLMNOPQRSTUVWXYZ").toList

/-- The label of the `i`-th surviving answer. -/
def labelOfIndex (i : ℕ) : String := labelStr (alphabet.getD i ('A'))

/-- Labels assigned by position starting at index `i`. -/
def assignLabelsAux : List MemberAnswer → ℕ → List (String × String)
  | [], _ => []
  | a :: as, i => (labelOfIndex i, a.model) :: assignLabelsAux as (i + 1)

/-- Modelled from the spec: the anonymizer assigns label `i` to the
`i`-th surviving answer in declared member order. -/
def assignLabels (answers : List MemberAnswer) : List (String × String) :=
  assignLabelsAux answers 0

/-- A functional slot store indexed by declared member position. -/
def updSlot (f : ℕ → Option CallResult) (i : ℕ) (v : Option CallResult) :
    ℕ → Option CallResult :=
  fun j => if j = i then v else f j

/-- Writes the result of member `i`'s call into its pre-assigned slot;
an index outside the member list writes nothing. -/
def writeSlot (members : List String) (oracle : String → CallResult)
    (f : ℕ → Option CallResult) (i : ℕ) : ℕ → Option CallResult :=
  match members.get? i with
  | some m => updSlot f i (some (oracle m))
  | none => f

/-- Modelled from the spec: the stage-1 fan-out observed as a barrier;
per-member results arrive in `arrival` order and each is written into the
slot of its declared position. -/
def runSlots (members : List String) (oracle : String → CallResult)
    (arrival : List ℕ) : ℕ → Option CallResult :=
  arrival.foldl (writeSlot members oracle) (fun _ => none)

/-- Reads the slots back in declared member order, keeping successes. -/
def readSlots : List String → (ℕ → Option CallResult) → ℕ → List MemberAnswer
  | [], _, _ => []
  | m :: ms, f, i =>
    match f i with
    | some (CallResult.success c u) => ⟨m, c, u⟩ :: readSlots ms f (i + 1)
    | _ => readSlots ms f (i + 1)

/-- The stage-1 result set of a run with completion order `arrival`. -/
def answersFromRun (members : List String) (oracle : String → CallResult)
    (arrival : List ℕ) : List MemberAnswer :=
  readSlots members (runSlots members oracle arrival) 0

/-- The label-to-model map produced by a run with completion order `arrival`. -/
def labelMapOfRun (members : List String) (oracle : String → CallResult)
    (arrival : List ℕ) : List (String × String) :=
  assignLabels (answersFromRun members oracle arrival)

/-- The usage id of a call, when the call succeeded and reported one. -/
def usageOf : CallResult → Option String
  | CallResult.success _ u => u
  | CallResult.failure => none

/-- Modelled from the spec: `run_full_council` of the council module,
absent from the sources. Stage 1 fans out to all members and fails
terminally with `insufficientCandidates` when fewer than two answers
survive; stage 2 collects judge rankings, dropping failed judges; the
aggregate is computed; stage 3 is a single call whose failure is
terminal. -/
def run_full_council (_question : String) (members : List String) (lead : String)
    (oracle1 oracle2 : String → CallResult) (oracle3 : CallResult) :
    Except CouncilError Bundle :=
  let s1 := survivors members oracle1
  if s1.length < 2 then Except.error CouncilError.insufficientCandidates
  else
    let l2m := assignLabels s1
    let s2 := members.filterMap (fun m =>
      match oracle2 m with
      | CallResult.success c _ => some (⟨m, c⟩ : JudgeRanking)
      | CallResult.failure => none)
    let agg := calculate_aggregate_rankings s2 l2m
    match oracle3 with
    | CallResult.failure => Except.error CouncilError.synthesisFailure
    | CallResult.success c u =>
      let ids := members.filterMap (fun m => usageOf (oracle1 m)) ++
        members.filterMap (fun m => usageOf (oracle2 m)) ++ u.toList
      Except.ok ⟨s1, s2, ⟨c, lead, u⟩, agg, ids⟩

/-- Modelled from the spec: `generate_conversation_title` of the council
module, absent from the sources; a failed title call must not propagate,
so the caller receives a truncated-question default and no usage id. -/
def generate_conversation_title (question : String) (titleCall : CallResult) :
    String × Option String :=
  match titleCall with
  | CallResult.success c u => (c, u)
  | CallResult.failure => (question.take 50, none)

/-! ## Endpoint control flow, embedded from `backend/main.py` -/

/-- The known model set of `backend/config.py`. -/
def AVAILABLE_MODELS : List String :=
  [("openai/gpt-5.1"), ("google/gemini-3-pro-preview"), ("anthropic/claude-sonnet-4.5")]

/-- Default member selection of `backend/config.py`. -/
def DEFAULT_MODELS : List String := AVAILABLE_MODELS

/-- Default lead model of `backend/config.py`. -/
def DEFAULT_LEAD_MODEL : String := "google/gemini-3-pro-preview"

/-- Embedded from `validate_model_selection` in `backend/main.py`:
defaults are substituted for absent fields, the first unknown member is
rejected, members are deduplicated preserving order, at least two unique
members are required, and the lead must be a known model. -/
def validate_model_selection (models : Option (List String))
    (lead_model : Option String) : Except String (List String × String) :=
  let selected_models := models.getD DEFAULT_MODELS
  let selected_lead := lead_model.getD DEFAULT_LEAD_MODEL
  match selected_models.find? (fun m => decide (m ∉ AVAILABLE_MODELS)) with
  | some m => Except.error (("Unknown model: ") ++ m)
  | none =>
    let unique_models := firstOccur selected_models []
    if unique_models.length < 2 then Except.error ("Select at least two models")
    else if AVAILABLE_MODELS.length < unique_models.length then
      Except.error ("Too many models selected")
    else if decide (selected_lead ∉ AVAILABLE_MODELS) then
      Except.error (("Unknown lead model: ") ++ selected_lead)
    else Except.ok (unique_models, selected_lead)

/-- The single failure message reported to the user on a failed run. -/
def failureMsg : String := "AI query failed. No charge was made."

/-- Embedded from `send_message` in `backend/main.py`: a failed council
run is reported as one failure message with no cost deduction; on success
the usage ids (with the title id appended when present) are billed.
Returns the response, the billed generation ids, and whether the
cost-deduction step ran. -/
def send_message_flow (question : String) (firstMessage : Bool)
    (titleCall : CallResult) (council : Except CouncilError Bundle) :
    Except String Bundle × List String × Bool :=
  match council with
  | Except.error _ => (Except.error failureMsg, [], false)
  | Except.ok b =>
    let t := generate_conversation_title question titleCall
    let ids := b.usage_ids ++ (if firstMessage then t.2.toList else [])
    (Except.ok b, ids, true)

/-- Server-sent events of the streaming endpoint. -/
inductive SseEvent where
  | stage1_start
  | stage1_complete
  | stage2_start
  | stage2_complete
  | stage3_start
  | stage3_complete
  | title_complete
  | complete
  | errorEvent (msg : String)
deriving DecidableEq

/-- Embedded from `event_generator` in `backend/main.py`: each stage
emits a start event and, on success, a complete event; a stage failure
emits a single error event and stops, with no cost deduction; after
stage 3 the title task is joined (its usage id billed only when present)
and costs are deducted only in credits mode. Returns the emitted events,
the billed generation ids, and whether the cost-deduction step ran. -/
def event_generator_flow (question : String) (firstMessage : Bool)
    (titleCall : CallResult)
    (s1 : Option (List MemberAnswer × List String))
    (s2 : Option (List JudgeRanking × List (String × String) × List String))
    (s3 : Option (SynthesisResult × Option String))
    (credits : Bool) : List SseEvent × List String × Bool :=
  match s1 with
  | none => ([SseEvent.stage1_start, SseEvent.errorEvent failureMsg], [], false)
  | some (_, ids1) =>
    match s2 with
    | none =>
      ([SseEvent.stage1_start, SseEvent.stage1_complete, SseEvent.stage2_start,
        SseEvent.errorEvent failureMsg], ids1, false)
    | some (_, _, ids2) =>
      match s3 with
      | none =>
        ([SseEvent.stage1_start, SseEvent.stage1_complete, SseEvent.stage2_start,
          SseEvent.stage2_complete, SseEvent.stage3_start,
          SseEvent.errorEvent failureMsg], ids1 ++ ids2, false)
      | some (_, id3) =>
        let ids := ids1 ++ ids2 ++ id3.toList
        let t := generate_conversation_title question titleCall
        let idsAll := if firstMessage then ids ++ t.2.toList else ids
        let evs := [SseEvent.stage1_start, SseEvent.stage1_complete,
          SseEvent.stage2_start, SseEvent.stage2_complete, SseEvent.stage3_start,
          SseEvent.stage3_complete] ++
          (if firstMessage then [SseEvent.title_complete] else []) ++
          [SseEvent.complete]
        (evs, idsAll, credits)

/-! ## Parser lemmas and claims C1-C3 -/

theorem digit_not_ws (c : Char) (h : isDigitChar c = true) : isWsChar c = false := by
  by_contra hw
  rw [Bool.not_eq_false, isWsChar] at hw
  simp only [Bool.or_eq_true, beq_iff_eq] at hw
  rcases hw with (h1 | h1) | h1 <;> subst h1 <;> exact absurd h (by decide)

theorem takeWhile_sat_append (p : Char → Bool) (ds : List Char) (x : Char)
    (rest : List Char) (hds : ∀ c ∈ ds, p c = true) (hx : p x = false) :
    (ds ++ x :: rest).takeWhile p = ds := by
  induction ds with
  | nil => simp [List.takeWhile_cons, hx]
  | cons d ds ih =>
    have hd : p d = true := hds d (by simp)
    simp [List.takeWhile_cons, hd, ih (fun c hc => hds c (List.mem_cons_of_mem _ hc))]

theorem dropWhile_sat_append (p : Char → Bool) (ds : List Char) (x : Char)
    (rest : List Char) (hds : ∀ c ∈ ds, p c = true) (hx : p x = false) :
    (ds ++ x :: rest).dropWhile p = x :: rest := by
  induction ds with
  | nil => simp [List.dropWhile_cons, hx]
  | cons d ds ih =>
    have hd : p d = true := hds d (by simp)
    simp [List.dropWhile_cons, hd, ih (fun c hc => hds c (List.mem_cons_of_mem _ hc))]

theorem parseNumberedLine_digits (ds rest : List Char) (hne : ds ≠ [])
    (hds : ∀ c ∈ ds, isDigitChar c = true) :
    parseNumberedLine (ds ++ ('.') :: rest) = headLabel (rest.dropWhile isWsChar) := by
  have h1 : (ds ++ ('.') :: rest).dropWhile isWsChar = ds ++ ('.') :: rest := by
    cases ds with
    | nil => exact absurd rfl hne
    | cons d ds' =>
      have hd : isWsChar d = false := digit_not_ws d (hds d (by simp))
      simp [List.dropWhile_cons, hd]
  have h2 : (ds ++ ('.') :: rest).takeWhile isDigitChar = ds :=
    takeWhile_sat_append _ _ _ _ hds (by decide)
  have h3 : (ds ++ ('.') :: rest).dropWhile isDigitChar = ('.') :: rest :=
    dropWhile_sat_append _ _ _ _ hds (by decide)
  rw [parseNumberedLine]
  simp only [h1, h2, h3]
  cases ds with
  | nil => exact absurd rfl hne
  | cons d ds' => simp

theorem windowOf_eq (s w : List Char) (h : afterSeq markerL s = some w) :
    windowOf s = w := by
  unfold windowOf
  rw [h]

theorem parseCore_of_window (s w : List Char) (hw : windowOf s = w)
    (hne : numberedLabels w ≠ []) : parseCore s = numberedLabels w := by
  rw [parseCore, hw]
  cases hnn : numberedLabels w with
  | nil => exact absurd hnn hne
  | cons a l => simp [hnn]

/-- C1: when the input contains the "FINAL RANKING:" marker (so the
window `w` is the text after it) and numbered-list lines are present in
that window, the parser returns exactly those labels in their textual
order of appearance; the result depends only on the window (so label
mentions before the marker are ignored), and a numbered line's label is
independent of the numeric value used. -/
theorem C1_marker_numbered (s w : List Char) (h : afterSeq markerL s = some w)
    (hne : numberedLabels w ≠ []) :
    parseCore s = numberedLabels w ∧
    (∀ t : List Char, afterSeq markerL t = some w → parseCore t = parseCore s) ∧
    (∀ ds ds' rest : List Char, ds ≠ [] → ds' ≠ [] →
      (∀ c ∈ ds, isDigitChar c = true) → (∀ c ∈ ds', isDigitChar c = true) →
      parseNumberedLine (ds ++ ('.') :: rest) =
        parseNumberedLine (ds' ++ ('.') :: rest)) := by
  have hp : parseCore s = numberedLabels w :=
    parseCore_of_window s w (windowOf_eq s w h) hne
  refine ⟨hp, ?_, ?_⟩
  · intro t ht
    rw [parseCore_of_window t w (windowOf_eq t w ht) hne, hp]
  · intro ds ds' rest h1 h2 h3 h4
    rw [parseNumberedLine_digits ds rest h1 h3,
      parseNumberedLine_digits ds' rest h2 h4]

def c1s : List Char :=
  ("junk Response B before\nFINAL RANKING:\n3. Response C\n1. Response A").toList

def c1w : List Char := ("\n3. Response C\n1. Response A").toList

/-- C1 witness: a concrete run with non-monotonic numbering and a label
mention before the marker. -/
theorem C1_marker_numbered_witness :
    parseCore c1s = numberedLabels c1w ∧ parseCore c1s = [('C'), ('A')] :=
  ⟨(C1_marker_numbered c1s c1w (by decide) (by decide)).1, by decide⟩

theorem leadsWith_iff (p : List Char) : ∀ l : List Char,
    leadsWith p l = true ↔ ∃ t, l = p ++ t := by
  induction p with
  | nil => intro l; simp [leadsWith]
  | cons a p ih =>
    intro l
    cases l with
    | nil => simp [leadsWith]
    | cons b l' =>
      rw [leadsWith, Bool.and_eq_true, beq_iff_eq, ih l']
      constructor
      · rintro ⟨rfl, t, rfl⟩
        exact ⟨t, rfl⟩
      · rintro ⟨t, ht⟩
        obtain ⟨h1, h2⟩ := List.cons.inj ht
        exact ⟨h1.symm, t, h2⟩

theorem headLabel_some (l : List Char) (c : Char) (h : headLabel l = some c) :
    isUpperAZ c = true ∧ ∃ v, l = respPat ++ c :: v := by
  rw [headLabel] at h
  by_cases hl : leadsWith respPat l = true
  · rw [if_pos hl] at h
    obtain ⟨t, rfl⟩ := (leadsWith_iff _ _).mp hl
    rw [List.drop_left] at h
    cases t with
    | nil => cases h
    | cons a t' =>
      have h' : (if isUpperAZ a = true then some a else none) = some c := h
      by_cases ha : isUpperAZ a = true
      · rw [if_pos ha] at h'
        cases h'
        exact ⟨ha, t', rfl⟩
      · rw [if_neg ha] at h'; cases h'
  · rw [if_neg hl] at h; cases h

theorem headLabel_of_pat (c : Char) (v : List Char) (hc : isUpperAZ c = true) :
    headLabel (respPat ++ c :: v) = some c := by
  rw [headLabel]
  have hl : leadsWith respPat (respPat ++ c :: v) = true :=
    (leadsWith_iff _ _).mpr ⟨_, rfl⟩
  rw [if_pos hl, List.drop_left]
  show (if isUpperAZ c = true then some c else none) = some c
  rw [if_pos hc]

theorem headLabel_append (l : List Char) (c : Char) (h : headLabel l = some c)
    (ys : List Char) : headLabel (l ++ ys) = some c := by
  obtain ⟨hc, v, rfl⟩ := headLabel_some l c h
  have := headLabel_of_pat c (v ++ ys) hc
  simpa [List.append_assoc] using this

theorem scanLabels_ne_of_head (l : List Char) (a : Char)
    (h : headLabel l = some a) : scanLabels l ≠ [] := by
  cases l with
  | nil =>
    have : headLabel ([] : List Char) = none := by decide
    rw [this] at h; cases h
  | cons c cs => rw [scanLabels, h]; simp

theorem scanLabels_append_nil (l ys : List Char) (h : scanLabels (l ++ ys) = []) :
    scanLabels l = [] ∧ scanLabels ys = [] := by
  induction l with
  | nil => exact ⟨rfl, h⟩
  | cons c cs ih =>
    rw [List.cons_append, scanLabels, List.append_eq_nil] at h
    obtain ⟨h1, h2⟩ := h
    obtain ⟨h3, h4⟩ := ih h2
    refine ⟨?_, h4⟩
    rw [scanLabels, List.append_eq_nil]
    refine ⟨?_, h3⟩
    cases hc2 : headLabel (c :: cs) with
    | none => simp
    | some a =>
      have hap := headLabel_append (c :: cs) a hc2 ys
      rw [List.cons_append] at hap
      rw [hap] at h1
      simp at h1

theorem scanLabels_drop (s : List Char) (k : ℕ) (h : scanLabels s = []) :
    scanLabels (s.drop k) = [] :=
  (scanLabels_append_nil (s.take k) (s.drop k)
    (by rw [List.take_append_drop]; exact h)).2

theorem afterSeq_drop (pat s w : List Char) (h : afterSeq pat s = some w) :
    ∃ k, w = s.drop k := by
  induction s with
  | nil => cases h
  | cons c cs ih =>
    rw [afterSeq] at h
    by_cases hl : leadsWith pat (c :: cs) = true
    · rw [if_pos hl] at h
      exact ⟨pat.length, (Option.some.inj h).symm⟩
    · rw [if_neg hl] at h
      obtain ⟨k, hk⟩ := ih h
      exact ⟨k + 1, by rw [List.drop_succ_cons]; exact hk⟩

theorem scanLabels_upper (s : List Char) (c : Char) (h : c ∈ scanLabels s) :
    isUpperAZ c = true := by
  induction s with
  | nil => cases h
  | cons a as ih =>
    rw [scanLabels] at h
    rcases List.mem_append.mp h with h1 | h1
    · cases hh : headLabel (a :: as) with
      | none => rw [hh] at h1; cases h1
      | some b =>
        rw [hh] at h1
        simp only [Option.toList_some, List.mem_singleton] at h1
        subst h1
        exact (headLabel_some _ _ hh).1
    · exact ih h1

theorem firstOccur_mem {α : Type} [DecidableEq α] (l : List α) (c : α) :
    ∀ seen, c ∈ firstOccur l seen → c ∈ l := by
  induction l with
  | nil => intro seen h; cases h
  | cons a as ih =>
    intro seen h
    rw [firstOccur] at h
    by_cases ha : a ∈ seen
    · rw [if_pos ha] at h
      exact List.mem_cons_of_mem _ (ih seen h)
    · rw [if_neg ha] at h
      rcases List.mem_cons.mp h with h1 | h1
      · simp [h1]
      · exact List.mem_cons_of_mem _ (ih _ h1)

theorem firstOccur_nodup {α : Type} [DecidableEq α] (l : List α) :
    ∀ seen, (firstOccur l seen).Nodup ∧ ∀ c ∈ firstOccur l seen, c ∉ seen := by
  induction l with
  | nil => intro seen; simp [firstOccur]
  | cons a as ih =>
    intro seen
    rw [firstOccur]
    by_cases ha : a ∈ seen
    · rw [if_pos ha]; exact ih seen
    · rw [if_neg ha]
      obtain ⟨h1, h2⟩ := ih (a :: seen)
      refine ⟨List.nodup_cons.mpr ⟨fun hmem => ?_, h1⟩, ?_⟩
      · exact (h2 a hmem) (List.mem_cons_self a seen)
      · intro c hc
        rcases List.mem_cons.mp hc with rfl | h3
        · exact ha
        · intro hcs
          exact (h2 c h3) (List.mem_cons_of_mem _ hcs)

theorem breakLines_ne_nil (s : List Char) : breakLines s ≠ [] := by
  cases s with
  | nil => simp [breakLines]
  | cons c cs =>
    rw [breakLines]
    by_cases h : (c == '\n') = true
    · rw [if_pos h]; simp
    · rw [if_neg h]
      cases hb : breakLines cs with
      | nil => simp [consHead]
      | cons l ls => simp [consHead]

theorem breakLines_head_init (s : List Char) :
    ∀ l ls, breakLines s = l :: ls → ∃ rest, s = l ++ rest := by
  induction s with
  | nil =>
    intro l ls h
    rw [breakLines] at h
    obtain ⟨h1, h2⟩ := List.cons.inj h
    exact ⟨[], by rw [← h1]; rfl⟩
  | cons c cs ih =>
    intro l ls h
    rw [breakLines] at h
    by_cases hc : (c == '\n') = true
    · rw [if_pos hc] at h
      obtain ⟨h1, h2⟩ := List.cons.inj h
      exact ⟨c :: cs, by rw [← h1]; rfl⟩
    · rw [if_neg hc] at h
      cases hb : breakLines cs with
      | nil => exact absurd hb (breakLines_ne_nil cs)
      | cons l' ls' =>
        rw [hb, consHead] at h
        obtain ⟨h1, h2⟩ := List.cons.inj h
        obtain ⟨rest, hr⟩ := ih l' ls' hb
        refine ⟨rest, ?_⟩
        rw [← h1, List.cons_append, ← hr]

theorem mem_breakLines_infix (s : List Char) :
    ∀ line, line ∈ breakLines s → ∃ u v, s = u ++ line ++ v := by
  induction s with
  | nil =>
    intro line h
    rw [breakLines] at h
    simp only [List.mem_singleton] at h
    exact ⟨[], [], by simp [h]⟩
  | cons c cs ih =>
    intro line h
    rw [breakLines] at h
    by_cases hc : (c == '\n') = true
    · rw [if_pos hc] at h
      rcases List.mem_cons.mp h with h1 | h1
      · exact ⟨[], c :: cs, by simp [h1]⟩
      · obtain ⟨u, v, huv⟩ := ih line h1
        exact ⟨c :: u, v, by simp [huv]⟩
    · rw [if_neg hc] at h
      cases hb : breakLines cs with
      | nil => exact absurd hb (breakLines_ne_nil cs)
      | cons l' ls' =>
        rw [hb, consHead] at h
        rcases List.mem_cons.mp h with h1 | h1
        · obtain ⟨rest, hr⟩ := breakLines_head_init cs l' ls' hb
          exact ⟨[], rest, by simp [h1, hr]⟩
        · have hmem : line ∈ breakLines cs := by
            rw [hb]; exact List.mem_cons_of_mem _ h1
          obtain ⟨u, v, huv⟩ := ih line hmem
          exact ⟨c :: u, v, by simp [huv]⟩

theorem parseNumberedLine_inv (l : List Char) (c : Char)
    (h : parseNumberedLine l = some c) :
    ∃ r2, (l.dropWhile isWsChar).dropWhile isDigitChar = ('.') :: r2 ∧
      headLabel (r2.dropWhile isWsChar) = some c ∧
      (l.dropWhile isWsChar).takeWhile isDigitChar ≠ [] := by
  simp only [parseNumberedLine] at h
  cases hd : (l.dropWhile isWsChar).dropWhile isDigitChar with
  | nil => rw [hd] at h; cases h
  | cons x r2 =>
    rw [hd] at h
    have h' : (if ((l.dropWhile isWsChar).takeWhile isDigitChar).isEmpty = true
        then none
        else if (x == ('.')) = true then headLabel (r2.dropWhile isWsChar)
        else none) = some c := h
    by_cases hds : ((l.dropWhile isWsChar).takeWhile isDigitChar).isEmpty = true
    · rw [if_pos hds] at h'; cases h'
    · rw [if_neg hds] at h'
      by_cases hx : (x == ('.')) = true
      · rw [if_pos hx] at h'
        have hxe : x = ('.') := beq_iff_eq.mp hx
        subst hxe
        refine ⟨r2, rfl, h', fun hnil => hds ?_⟩
        rw [hnil]; rfl
      · rw [if_neg hx] at h'; cases h'

theorem parseNumberedLine_some (l : List Char) (c : Char)
    (h : parseNumberedLine l = some c) :
    isUpperAZ c = true ∧ ∃ u v, l = u ++ (respPat ++ c :: v) := by
  obtain ⟨r2, hd, hh, -⟩ := parseNumberedLine_inv l c h
  obtain ⟨hup, v, hv⟩ := headLabel_some _ _ hh
  refine ⟨hup, l.takeWhile isWsChar ++ (l.dropWhile isWsChar).takeWhile isDigitChar
    ++ [('.')] ++ r2.takeWhile isWsChar, v, ?_⟩
  conv_lhs => rw [← List.takeWhile_append_dropWhile isWsChar l,
    ← List.takeWhile_append_dropWhile isDigitChar (l.dropWhile isWsChar), hd,
    ← List.takeWhile_append_dropWhile isWsChar r2, hv]
  simp [List.append_assoc]

theorem numberedLabels_scan (w : List Char) (hnw : numberedLabels w ≠ []) :
    scanLabels w ≠ [] := by
  cases hnn : numberedLabels w with
  | nil => exact absurd hnn hnw
  | cons a rest =>
    have ha : a ∈ numberedLabels w := by rw [hnn]; simp
    obtain ⟨line, hline, hpl⟩ := List.mem_filterMap.mp ha
    obtain ⟨u, v, huv⟩ := mem_breakLines_infix w line hline
    obtain ⟨hup, u2, v2, hdec⟩ := parseNumberedLine_some line a hpl
    intro hnil
    rw [huv] at hnil
    have h1 := (scanLabels_append_nil _ _ hnil).1
    have h2 := (scanLabels_append_nil _ _ h1).2
    rw [hdec] at h2
    have h3 := (scanLabels_append_nil _ _ h2).2
    exact scanLabels_ne_of_head _ a (headLabel_of_pat a v2 hup) h3

/-- C2: the parser is total: on every input it returns a list of labels
drawn from the fixed alphabet "Response A", ..., "Response Z"; the empty
string parses to the empty list, and any text containing no
"Response <letter>" mention parses to the empty list. -/
theorem C2_total_alphabet :
    (∀ s : String, ∀ l ∈ parse_ranking_from_text s,
      ∃ c, isUpperAZ c = true ∧ l = labelStr c)
    ∧ parse_ranking_from_text ("") = []
    ∧ (∀ s : String, scanLabels s.toList = [] → parse_ranking_from_text s = []) := by
  refine ⟨?_, by decide, ?_⟩
  · intro s l hl
    rw [parse_ranking_from_text] at hl
    obtain ⟨c, hc, rfl⟩ := List.mem_map.mp hl
    refine ⟨c, ?_, rfl⟩
    rw [parseCore] at hc
    by_cases he : (numberedLabels (windowOf s.toList)).isEmpty = true
    · rw [if_pos he] at hc
      exact scanLabels_upper _ _ (firstOccur_mem _ _ _ hc)
    · rw [if_neg he] at hc
      obtain ⟨line, -, hpl⟩ := List.mem_filterMap.mp hc
      exact (parseNumberedLine_some _ _ hpl).1
  · intro s h
    have hwin : scanLabels (windowOf s.toList) = [] := by
      rw [windowOf]
      cases ha : afterSeq markerL s.toList with
      | none => exact h
      | some w =>
        obtain ⟨k, rfl⟩ := afterSeq_drop markerL s.toList w ha
        exact scanLabels_drop _ k h
    have hnum : numberedLabels (windowOf s.toList) = [] := by
      by_contra hne
      exact (numberedLabels_scan _ hne) hwin
    rw [parse_ranking_from_text, parseCore, hnum, hwin]
    rfl

def c2s : String := "no mentions of any label in this text"

/-- C2 witness: a concrete mention-free text parses to the empty list. -/
theorem C2_total_alphabet_witness : parse_ranking_from_text c2s = [] :=
  C2_total_alphabet.2.2 c2s (by decide)

/-- C3: whenever no numbered-list line matches in the parsing window
(marker present or not), the parser returns every "Response <letter>"
occurrence of the window in first-occurrence order, and the result has
no duplicates. -/
theorem C3_fallback (s : String)
    (h : numberedLabels (windowOf s.toList) = []) :
    parse_ranking_from_text s =
      (firstOccur (scanLabels (windowOf s.toList)) []).map labelStr
    ∧ (parseCore s.toList).Nodup := by
  have hp : parseCore s.toList = firstOccur (scanLabels (windowOf s.toList)) [] := by
    rw [parseCore, h]
    rfl
  constructor
  · rw [parse_ranking_from_text, hp]
  · rw [hp]
    exact (firstOccur_nodup _ []).1

def c3s : String := "I think Response A is best, then Response B. Response A rocks."

/-- C3 witness: fallback extraction on a concrete header-free text, in
first-occurrence order with the duplicate mention removed. -/
theorem C3_fallback_witness :
    parse_ranking_from_text c3s =
      (firstOccur (scanLabels (windowOf c3s.toList)) []).map labelStr
    ∧ parse_ranking_from_text c3s = [("Response A"), ("Response B")] :=
  ⟨(C3_fallback c3s (by decide)).1, by decide⟩

/-! ## Aggregator lemmas and claims C4-C5 -/

theorem occPosAux_not_mem (lbl : String) : ∀ (order : List String) (i : ℕ),
    lbl ∉ order → occPosAux lbl order i = [] := by
  intro order
  induction order with
  | nil => intro i _; rfl
  | cons x xs ih =>
    intro i h
    rw [occPosAux, if_neg (fun hx => h (by rw [hx]; exact List.mem_cons_self _ _))]
    exact ih (i + 1) (fun hm => h (List.mem_cons_of_mem _ hm))

theorem occPosAux_nodup (lbl : String) : ∀ (order : List String),
    order.Nodup → lbl ∈ order →
    ∀ i, occPosAux lbl order i = [List.indexOf lbl order + i] := by
  intro order
  induction order with
  | nil => intro _ hm; cases hm
  | cons x xs ih =>
    intro hnd hm i
    rw [occPosAux]
    by_cases hx : x = lbl
    · rw [if_pos hx]
      subst hx
      rw [occPosAux_not_mem _ _ _ (List.nodup_cons.mp hnd).1,
        List.indexOf_cons_self]
      simp
    · rw [if_neg hx]
      have hm' : lbl ∈ xs := by
        rcases List.mem_cons.mp hm with h1 | h1
        · exact absurd h1.symm hx
        · exact h1
      rw [ih (List.nodup_cons.mp hnd).2 hm' (i + 1), List.indexOf_cons_ne _ hx]
      simp only [List.cons.injEq, and_true]
      omega

theorem occPositions_eq (lbl : String) (order : List String) (hnd : order.Nodup) :
    occPositions lbl order =
      if lbl ∈ order then [List.indexOf lbl order + 1] else [] := by
  by_cases hm : lbl ∈ order
  · rw [if_pos hm, occPositions, occPosAux_nodup lbl order hnd hm 1]
  · rw [if_neg hm, occPositions, occPosAux_not_mem lbl order 1 hm]

theorem ratingPositions_eq (lbl : String) (rs : List JudgeRanking)
    (hnd : ∀ r ∈ rs, (parsedOrder r).Nodup) :
    ratingPositions lbl rs =
      (rs.filter (fun r => decide (lbl ∈ parsedOrder r))).map
        (fun r => List.indexOf lbl (parsedOrder r) + 1) := by
  induction rs with
  | nil => rfl
  | cons r rest ih =>
    have hr := hnd r (List.mem_cons_self r rest)
    have ihh := ih (fun x hx => hnd x (List.mem_cons_of_mem _ hx))
    simp only [ratingPositions, List.flatMap_cons] at ihh ⊢
    rw [occPositions_eq lbl _ hr, List.filter_cons]
    by_cases hm : lbl ∈ parsedOrder r
    · rw [if_pos hm, ihh]
      simp [hm]
    · rw [if_neg hm, ihh]
      simp [hm]

theorem firstOccur_complete {α : Type} [DecidableEq α] (l : List α) (c : α) :
    ∀ seen, c ∈ l → c ∉ seen → c ∈ firstOccur l seen := by
  induction l with
  | nil => intro seen h _; cases h
  | cons a as ih =>
    intro seen h hcs
    rw [firstOccur]
    by_cases ha : a ∈ seen
    · rw [if_pos ha]
      rcases List.mem_cons.mp h with rfl | h1
      · exact absurd ha hcs
      · exact ih seen h1 hcs
    · rw [if_neg ha]
      rcases List.mem_cons.mp h with rfl | h1
      · exact List.mem_cons_self _ _
      · by_cases hca : c = a
        · subst hca; exact List.mem_cons_self _ _
        · refine List.mem_cons_of_mem _ (ih (a :: seen) h1 ?_)
          intro hm
          rcases List.mem_cons.mp hm with h2 | h2
          · exact hca h2
          · exact hcs h2

theorem mem_allMentioned (rs : List JudgeRanking) (lbl : String) :
    lbl ∈ allMentioned rs ↔ ∃ r ∈ rs, lbl ∈ parsedOrder r := by
  rw [allMentioned]
  constructor
  · intro h
    exact List.mem_flatMap.mp (firstOccur_mem _ _ _ h)
  · intro h
    exact firstOccur_complete _ _ [] (List.mem_flatMap.mpr h) (by simp)

theorem entryFor_eq (rs : List JudgeRanking) (l2m : List (String × String))
    (lbl m : String) (hl : lookupStr lbl l2m = some m)
    (hne : ratingPositions lbl rs ≠ []) :
    entryFor rs l2m lbl = some ⟨m,
      ((ratingPositions lbl rs).sum : ℚ) / ((ratingPositions lbl rs).length : ℚ),
      (ratingPositions lbl rs).length⟩ := by
  simp only [entryFor, hl]
  cases hp : ratingPositions lbl rs with
  | nil => exact absurd hp hne
  | cons a t => simp

/-- C4: with duplicate-free parsed orders, the aggregate holds one entry
for every label that some judge mentioned and the map translates: its
`rankings_count` is the number of judges that mentioned the label and its
`average_rank` is the sum of the label's 1-indexed positions over those
judges divided by their number; conversely every entry of the aggregate
arises from a mapped label mentioned by at least one judge, so unmapped
or unmentioned labels are silently discarded. -/
theorem C4_aggregate (rs : List JudgeRanking) (l2m : List (String × String))
    (hnd : ∀ r ∈ rs, (parsedOrder r).Nodup) :
    (∀ lbl m, lookupStr lbl l2m = some m →
      rs.filter (fun r => decide (lbl ∈ parsedOrder r)) ≠ [] →
      ∃ e ∈ calculate_aggregate_rankings rs l2m,
        e.model = m ∧
        e.rankings_count =
          (rs.filter (fun r => decide (lbl ∈ parsedOrder r))).length ∧
        e.average_rank =
          (((rs.filter (fun r => decide (lbl ∈ parsedOrder r))).map
            (fun r => List.indexOf lbl (parsedOrder r) + 1)).sum : ℚ) /
          ((rs.filter (fun r => decide (lbl ∈ parsedOrder r))).length : ℚ))
    ∧ (∀ e ∈ calculate_aggregate_rankings rs l2m,
        ∃ lbl, lookupStr lbl l2m = some e.model ∧ ∃ r ∈ rs, lbl ∈ parsedOrder r) := by
  constructor
  · intro lbl m hl hJ
    have hps := ratingPositions_eq lbl rs hnd
    have hpne : ratingPositions lbl rs ≠ [] := by
      rw [hps]
      intro h0
      exact hJ (List.map_eq_nil_iff.mp h0)
    have hef := entryFor_eq rs l2m lbl m hl hpne
    have hmem : lbl ∈ allMentioned rs := by
      rw [mem_allMentioned]
      cases hJf : rs.filter (fun r => decide (lbl ∈ parsedOrder r)) with
      | nil => exact absurd hJf hJ
      | cons r t =>
        have hrf : r ∈ rs.filter (fun r => decide (lbl ∈ parsedOrder r)) := by
          rw [hJf]; exact List.mem_cons_self _ _
        obtain ⟨hr, hpr⟩ := List.mem_filter.mp hrf
        exact ⟨r, hr, of_decide_eq_true hpr⟩
    refine ⟨⟨m, ((ratingPositions lbl rs).sum : ℚ) / ((ratingPositions lbl rs).length : ℚ),
      (ratingPositions lbl rs).length⟩, ?_, rfl, ?_, ?_⟩
    · rw [calculate_aggregate_rankings, sortEntries, List.mem_insertionSort]
      exact List.mem_filterMap.mpr ⟨lbl, hmem, hef⟩
    · show (ratingPositions lbl rs).length = _
      rw [hps, List.length_map]
    · show ((ratingPositions lbl rs).sum : ℚ) / ((ratingPositions lbl rs).length : ℚ) = _
      rw [hps, List.length_map]
  · intro e he
    rw [calculate_aggregate_rankings, sortEntries, List.mem_insertionSort] at he
    obtain ⟨lbl, hmem, hef⟩ := List.mem_filterMap.mp he
    refine ⟨lbl, ?_, (mem_allMentioned rs lbl).mp hmem⟩
    simp only [entryFor] at hef
    cases hlk : lookupStr lbl l2m with
    | none => rw [hlk] at hef; cases hef
    | some m =>
      rw [hlk] at hef
      have hef' : (if (ratingPositions lbl rs).isEmpty = true then none
          else some (⟨m,
            ((ratingPositions lbl rs).sum : ℚ) / ((ratingPositions lbl rs).length : ℚ),
            (ratingPositions lbl rs).length⟩ : AggregateEntry)) = some e := hef
      by_cases hps : (ratingPositions lbl rs).isEmpty = true
      · rw [if_pos hps] at hef'; cases hef'
      · rw [if_neg hps] at hef'
        cases hef'
        simp only [AggregateEntry.mk.injEq]

def c4rs : List JudgeRanking :=
  [⟨("gpt-4"), ("FINAL RANKING:\n1. Response A\n2. Response B\n3. Response C")⟩,
   ⟨("claude"), ("FINAL RANKING:\n1. Response B\n2. Response A\n3. Response C")⟩]

def c4map : List (String × String) :=
  [(("Response A"), ("openai/gpt-4")), (("Response B"), ("anthropic/claude")),
   (("Response C"), ("google/gemini"))]

/-- C4 witness: the two-judge run of the unit tests, instantiated at
label "Response A". -/
theorem C4_aggregate_witness :
    ∃ e ∈ calculate_aggregate_rankings c4rs c4map,
      e.model = ("openai/gpt-4") ∧
      e.rankings_count =
        (c4rs.filter (fun r => decide (("Response A") ∈ parsedOrder r))).length ∧
      e.average_rank =
        (((c4rs.filter (fun r => decide (("Response A") ∈ parsedOrder r))).map
          (fun r => List.indexOf ("Response A") (parsedOrder r) + 1)).sum : ℚ) /
        ((c4rs.filter (fun r => decide (("Response A") ∈ parsedOrder r))).length : ℚ) :=
  (C4_aggregate c4rs c4map (by decide)).1 ("Response A") ("openai/gpt-4")
    (by decide) (by decide)

theorem filter_orderedInsert (q : ℚ) (x : AggregateEntry) :
    ∀ l : List AggregateEntry,
    (List.orderedInsert entryLE x l).filter (fun e => decide (e.average_rank = q)) =
      if x.average_rank = q
      then x :: l.filter (fun e => decide (e.average_rank = q))
      else l.filter (fun e => decide (e.average_rank = q)) := by
  intro l
  induction l with
  | nil =>
    rw [List.orderedInsert_nil]
    by_cases hx : x.average_rank = q
    · rw [if_pos hx]; simp [List.filter_cons, hx]
    · rw [if_neg hx]; simp [List.filter_cons, hx]
  | cons y ys ih =>
    simp only [List.orderedInsert]
    by_cases hle : entryLE x y
    · rw [if_pos hle]
      by_cases hx : x.average_rank = q
      · rw [if_pos hx]; simp [List.filter_cons, hx]
      · rw [if_neg hx]; simp [List.filter_cons, hx]
    · rw [if_neg hle]
      have hyx : y.average_rank < x.average_rank := lt_of_not_le hle
      rw [List.filter_cons, List.filter_cons, ih]
      by_cases hx : x.average_rank = q
      · have hy : ¬ y.average_rank = q := by
          intro h0; rw [h0, ← hx] at hyx; exact lt_irrefl _ hyx
        simp [hx, hy]
      · by_cases hy : y.average_rank = q
        · simp [hx, hy]
        · simp [hx, hy]

theorem filter_sortEntries (q : ℚ) : ∀ l : List AggregateEntry,
    (sortEntries l).filter (fun e => decide (e.average_rank = q)) =
      l.filter (fun e => decide (e.average_rank = q)) := by
  intro l
  induction l with
  | nil => rfl
  | cons a l ih =>
    rw [sortEntries, List.insertionSort, filter_orderedInsert]
    rw [sortEntries] at ih
    by_cases ha : a.average_rank = q
    · rw [if_pos ha, ih, List.filter_cons]
      simp [ha]
    · rw [if_neg ha, ih, List.filter_cons]
      simp [ha]

/-- C5: the aggregate is sorted ascending by average rank; entries tied
on `average_rank` keep the relative order of the pre-sort entry list
(the sort is stable, ties are not re-broken); and both an empty judge
list and judges that all parse to empty produce an empty aggregate. -/
theorem C5_sorted_stable (rs : List JudgeRanking) (l2m : List (String × String)) :
    List.Sorted entryLE (calculate_aggregate_rankings rs l2m)
    ∧ (∀ q : ℚ, (calculate_aggregate_rankings rs l2m).filter
        (fun e => decide (e.average_rank = q)) =
        ((allMentioned rs).filterMap (entryFor rs l2m)).filter
          (fun e => decide (e.average_rank = q)))
    ∧ calculate_aggregate_rankings [] l2m = []
    ∧ ((∀ r ∈ rs, parsedOrder r = []) → calculate_aggregate_rankings rs l2m = []) := by
  refine ⟨?_, ?_, rfl, ?_⟩
  · rw [calculate_aggregate_rankings, sortEntries]
    exact List.sorted_insertionSort entryLE _
  · intro q
    rw [calculate_aggregate_rankings]
    exact filter_sortEntries q _
  · intro h
    have hfm : rs.flatMap parsedOrder = [] := by
      induction rs with
      | nil => rfl
      | cons r rest ih =>
        rw [List.flatMap_cons, h r (List.mem_cons_self _ _),
          ih (fun x hx => h x (List.mem_cons_of_mem _ hx))]
        rfl
    rw [calculate_aggregate_rankings, allMentioned, hfm]
    rfl

def c5rs : List JudgeRanking := [⟨("solo"), ("totally unrelated text")⟩]

def c5map : List (String × String) := [(("Response A"), ("model-a"))]

/-- C5 witness: a judge whose text parses to no labels yields the empty
aggregate. -/
theorem C5_sorted_stable_witness : calculate_aggregate_rankings c5rs c5map = [] :=
  (C5_sorted_stable c5rs c5map).2.2.2 (by decide)

/-! ## Orchestrator lemmas and claims C6-C7 -/

/-- C6: whenever fewer than two stage-1 answers survive, the run returns
the typed insufficient-candidates error (not a bundle), and the outcome
is independent of the stage-3 oracle, so no synthesis is attempted. -/
theorem C6_insufficient (q : String) (members : List String) (lead : String)
    (o1 o2 : String → CallResult)
    (h : (survivors members o1).length < 2) :
    ∀ o3 o3' : CallResult,
      run_full_council q members lead o1 o2 o3 =
        Except.error CouncilError.insufficientCandidates ∧
      run_full_council q members lead o1 o2 o3 =
        run_full_council q members lead o1 o2 o3' := by
  intro o3 o3'
  constructor
  · simp only [run_full_council]
    rw [if_pos h]
  · simp only [run_full_council]
    rw [if_pos h, if_pos h]

def c6members : List String := [("model-a"), ("model-b")]

/-- C6 witness: both stage-1 calls fail, so the run errors out. -/
theorem C6_insufficient_witness :
    run_full_council ("q") c6members ("model-a") (fun _ => CallResult.failure)
      (fun _ => CallResult.failure) CallResult.failure =
      Except.error CouncilError.insufficientCandidates :=
  (C6_insufficient ("q") c6members ("model-a") (fun _ => CallResult.failure)
    (fun _ => CallResult.failure) (by decide)
    CallResult.failure CallResult.failure).1

theorem foldl_writeSlot_eq (members : List String) (oracle : String → CallResult) :
    ∀ (arrival : List ℕ) (f : ℕ → Option CallResult) (j : ℕ),
    (arrival.foldl (writeSlot members oracle) f) j =
      match members.get? j with
      | some m => if j ∈ arrival then some (oracle m) else f j
      | none => f j := by
  intro arrival
  induction arrival with
  | nil =>
    intro f j
    cases members.get? j <;> simp
  | cons i rest ih =>
    intro f j
    rw [List.foldl_cons, ih (writeSlot members oracle f i) j]
    cases hj : members.get? j with
    | none =>
      simp only [writeSlot]
      cases hi : members.get? i with
      | none => rfl
      | some mi =>
        simp only [updSlot]
        by_cases hij : j = i
        · subst hij; rw [hj] at hi; cases hi
        · rw [if_neg hij]
    | some m =>
      dsimp only
      by_cases hmem : j ∈ rest
      · rw [if_pos hmem, if_pos (List.mem_cons_of_mem _ hmem)]
      · rw [if_neg hmem]
        simp only [writeSlot]
        by_cases hij : j = i
        · subst hij
          rw [hj]
          simp only [updSlot, if_pos rfl]
          simp [List.mem_cons_self]
        · have hnotin : j ∉ i :: rest := by
            intro hm
            rcases List.mem_cons.mp hm with hh1 | hh1
            · exact hij hh1
            · exact hmem hh1
          rw [if_neg hnotin]
          cases hi : members.get? i with
          | none => rfl
          | some mi => simp only [updSlot]; rw [if_neg hij]

theorem survivors_cons (m : String) (ms : List String)
    (oracle : String → CallResult) :
    survivors (m :: ms) oracle =
      match oracle m with
      | CallResult.success c u => ⟨m, c, u⟩ :: survivors ms oracle
      | CallResult.failure => survivors ms oracle := by
  simp only [survivors, List.filterMap_cons]
  cases oracle m <;> rfl

theorem readSlots_eq (oracle : String → CallResult) (f : ℕ → Option CallResult) :
    ∀ (ms : List String) (i : ℕ),
    (∀ j (m : String), ms.get? j = some m → f (i + j) = some (oracle m)) →
    readSlots ms f i = survivors ms oracle := by
  intro ms
  induction ms with
  | nil => intro i _; rfl
  | cons m ms ih =>
    intro i h
    have h0 : f i = some (oracle m) := by
      have := h 0 m rfl
      simpa using this
    have htail : ∀ j (m' : String), ms.get? j = some m' →
        f ((i + 1) + j) = some (oracle m') := by
      intro j m' hj
      have heq : (i + 1) + j = i + (j + 1) := by omega
      rw [heq]
      exact h (j + 1) m' hj
    rw [readSlots, h0, survivors_cons]
    cases ho : oracle m with
    | success c u =>
      dsimp only
      exact congrArg _ (ih (i + 1) htail)
    | failure =>
      dsimp only
      exact ih (i + 1) htail

theorem answersFromRun_eq (members : List String) (oracle : String → CallResult)
    (arrival : List ℕ) (hc : ∀ j < members.length, j ∈ arrival) :
    answersFromRun members oracle arrival = survivors members oracle := by
  rw [answersFromRun]
  apply readSlots_eq
  intro j m hj
  have hjlt : j < members.length := by
    by_contra hge
    rw [List.get?_eq_none.mpr (by omega)] at hj
    cases hj
  rw [Nat.zero_add, runSlots, foldl_writeSlot_eq members oracle arrival _ j, hj]
  dsimp only
  rw [if_pos (hc j hjlt)]

theorem labelOfIndex_inj : ∀ i < 26, ∀ j < 26,
    labelOfIndex i = labelOfIndex j → i = j := by decide

theorem assignLabelsAux_fst_nodup : ∀ (l : List MemberAnswer) (i : ℕ),
    i + l.length ≤ 26 →
    ((assignLabelsAux l i).map Prod.fst).Nodup ∧
    (∀ p ∈ assignLabelsAux l i, ∃ j, i ≤ j ∧ j < i + l.length ∧
      p.1 = labelOfIndex j) := by
  intro l
  induction l with
  | nil => intro i _; exact ⟨List.nodup_nil, by simp [assignLabelsAux]⟩
  | cons a as ih =>
    intro i hle
    rw [List.length_cons] at hle
    obtain ⟨h1, h2⟩ := ih (i + 1) (by omega)
    rw [assignLabelsAux]
    refine ⟨?_, ?_⟩
    · rw [List.map_cons]
      refine List.nodup_cons.mpr ⟨?_, h1⟩
      intro hmem
      obtain ⟨p, hp, hpe⟩ := List.mem_map.mp hmem
      obtain ⟨j, hj1, hj2, hj3⟩ := h2 p hp
      have hij : i = j :=
        labelOfIndex_inj i (by omega) j (by omega) (by rw [← hj3, hpe])
      omega
    · intro p hp
      rcases List.mem_cons.mp hp with rfl | hp1
      · exact ⟨i, le_refl i, by rw [List.length_cons]; omega, rfl⟩
      · obtain ⟨j, hj1, hj2, hj3⟩ := h2 p hp1
        exact ⟨j, by omega, by rw [List.length_cons]; omega, hj3⟩

theorem assignLabelsAux_get? : ∀ (l : List MemberAnswer) (i k : ℕ),
    (assignLabelsAux l i).get? k =
      (l.get? k).map (fun a => (labelOfIndex (i + k), a.model)) := by
  intro l
  induction l with
  | nil => intro i k; cases k <;> rfl
  | cons a as ih =>
    intro i k
    cases k with
    | zero => simp [assignLabelsAux]
    | succ k' =>
      rw [assignLabelsAux]
      show (assignLabelsAux as (i + 1)).get? k' = _
      rw [ih (i + 1) k']
      have heq : i + 1 + k' = i + (k' + 1) := by omega
      rw [heq]
      rfl

/-- C7: label assignment is deterministic and invariant under call
completion order: any two complete arrival orders give the same
label-to-model map, equal to the declared-order assignment; label `k` is
assigned to the `k`-th surviving answer in declared member order; and
the assigned labels are pairwise distinct (never reused). -/
theorem C7_labels (members : List String) (o1 : String → CallResult)
    (ar1 ar2 : List ℕ) (h1 : ar1.Perm (List.range members.length))
    (h2 : ar2.Perm (List.range members.length)) (hlen : members.length ≤ 26) :
    labelMapOfRun members o1 ar1 = labelMapOfRun members o1 ar2 ∧
    labelMapOfRun members o1 ar1 = assignLabels (survivors members o1) ∧
    (∀ k a, (survivors members o1).get? k = some a →
      (assignLabels (survivors members o1)).get? k =
        some (labelOfIndex k, a.model)) ∧
    ((assignLabels (survivors members o1)).map Prod.fst).Nodup := by
  have hc1 : ∀ j < members.length, j ∈ ar1 := fun j hj =>
    (h1.mem_iff).mpr (List.mem_range.mpr hj)
  have hc2 : ∀ j < members.length, j ∈ ar2 := fun j hj =>
    (h2.mem_iff).mpr (List.mem_range.mpr hj)
  have e1 : labelMapOfRun members o1 ar1 = assignLabels (survivors members o1) := by
    rw [labelMapOfRun, answersFromRun_eq members o1 ar1 hc1]
  have e2 : labelMapOfRun members o1 ar2 = assignLabels (survivors members o1) := by
    rw [labelMapOfRun, answersFromRun_eq members o1 ar2 hc2]
  refine ⟨by rw [e1, e2], e1, ?_, ?_⟩
  · intro k a hk
    rw [assignLabels, assignLabelsAux_get? _ 0 k, hk]
    simp
  · have hs : (survivors members o1).length ≤ 26 :=
      le_trans (List.length_filterMap_le _ _) hlen
    exact (assignLabelsAux_fst_nodup (survivors members o1) 0 (by omega)).1

def c7members : List String := [("m1"), ("m2")]

def c7oracle : String → CallResult := fun m => CallResult.success m none

/-- C7 witness: the same two-member run under the two possible completion
orders yields one and the same label-to-model map. -/
theorem C7_labels_witness :
    labelMapOfRun c7members c7oracle [0, 1] = labelMapOfRun c7members c7oracle [1, 0]
    ∧ labelMapOfRun c7members c7oracle [1, 0] =
        [(("Response A"), ("m1")), (("Response B"), ("m2"))] :=
  ⟨(C7_labels c7members c7oracle [0, 1] [1, 0] (by decide) (by decide)
    (by decide)).1, by decide⟩

/-! ## Endpoint claims C8-C10 -/

instance {ε α : Type} [DecidableEq ε] [DecidableEq α] : DecidableEq (Except ε α) :=
  fun a b =>
  match a, b with
  | Except.error x, Except.error y =>
    if h : x = y then isTrue (by rw [h])
    else isFalse (by intro hc; cases hc; exact h rfl)
  | Except.ok x, Except.ok y =>
    if h : x = y then isTrue (by rw [h])
    else isFalse (by intro hc; cases hc; exact h rfl)
  | Except.error _, Except.ok _ => isFalse (by intro hc; cases hc)
  | Except.ok _, Except.error _ => isFalse (by intro hc; cases hc)

def c8models : List String := [("openai/gpt-5.1"), ("anthropic/claude-sonnet-4.5")]

/-- C8 counterexample: a selection whose lead is a known model but not
one of the selected members is accepted, contradicting the claim that
the entry point requires the lead to be one of the members. -/
theorem C8_counterexample :
    validate_model_selection (some c8models) (some ("google/gemini-3-pro-preview")) =
      Except.ok (c8models, ("google/gemini-3-pro-preview")) ∧
    ("google/gemini-3-pro-preview") ∉ c8models := by decide

/-- C8 amended: the entry point accepts exactly the selections whose
members are all known models, that keep at least two unique members
after order-preserving deduplication (and no more than the known-model
count), and whose lead is any known model; the lead is not required to
be one of the members. -/
theorem C8_amended_validate (models : List String) (lead : String) :
    (∃ result, validate_model_selection (some models) (some lead) =
      Except.ok result) ↔
      ((∀ m ∈ models, m ∈ AVAILABLE_MODELS) ∧
        2 ≤ (firstOccur models []).length ∧
        (firstOccur models []).length ≤ AVAILABLE_MODELS.length ∧
        lead ∈ AVAILABLE_MODELS) := by
  constructor
  · rintro ⟨result, hr⟩
    simp only [validate_model_selection, Option.getD_some] at hr
    cases hf : models.find? (fun m => decide (m ∉ AVAILABLE_MODELS)) with
    | some m => rw [hf] at hr; cases hr
    | none =>
      rw [hf] at hr
      dsimp only at hr
      have hall : ∀ m ∈ models, m ∈ AVAILABLE_MODELS := by
        intro m hm
        have := List.find?_eq_none.mp hf m hm
        simpa using this
      by_cases h2 : (firstOccur models []).length < 2
      · rw [if_pos h2] at hr; cases hr
      · rw [if_neg h2] at hr
        by_cases h3 : AVAILABLE_MODELS.length < (firstOccur models []).length
        · rw [if_pos h3] at hr; cases hr
        · rw [if_neg h3] at hr
          by_cases h4 : decide (lead ∉ AVAILABLE_MODELS) = true
          · rw [if_pos h4] at hr; cases hr
          · refine ⟨hall, by omega, by omega, ?_⟩
            simpa using h4
  · rintro ⟨hall, h2, h3, h4⟩
    refine ⟨(firstOccur models [], lead), ?_⟩
    simp only [validate_model_selection, Option.getD_some]
    have hf : models.find? (fun m => decide (m ∉ AVAILABLE_MODELS)) = none := by
      rw [List.find?_eq_none]
      intro x hx
      simp [hall x hx]
    rw [hf]
    dsimp only
    rw [if_neg (by omega), if_neg (by omega), if_neg (by simp [h4])]

/-- C8 amended witness: a concrete valid selection is accepted. -/
theorem C8_amended_validate_witness :
    ∃ result, validate_model_selection (some c8models) (some ("openai/gpt-5.1")) =
      Except.ok result :=
  (C8_amended_validate c8models ("openai/gpt-5.1")).mpr (by decide)

/-- C9: a failed run produces the single failure message and performs no
cost deduction, in both endpoint flows; the deduction step runs only when
the council succeeded (plain flow) or when every stage succeeded with
credits-mode billing (streaming flow). -/
theorem C9_no_charge_on_failure :
    (∀ (q : String) (fm : Bool) (tc : CallResult) (err : CouncilError),
      send_message_flow q fm tc (Except.error err) =
        (Except.error failureMsg, [], false)) ∧
    (∀ (q : String) (fm : Bool) (tc : CallResult)
      (council : Except CouncilError Bundle) (r : Except String Bundle)
      (ids : List String), send_message_flow q fm tc council = (r, ids, true) →
      ∃ b, council = Except.ok b ∧ r = Except.ok b) ∧
    (∀ (q : String) (fm : Bool) (tc : CallResult) s1 s2 s3 (credits : Bool),
      s1 = none ∨ s2 = none ∨ s3 = none →
      (event_generator_flow q fm tc s1 s2 s3 credits).1.count
          (SseEvent.errorEvent failureMsg) = 1 ∧
        (event_generator_flow q fm tc s1 s2 s3 credits).2.2 = false) ∧
    (∀ (q : String) (fm : Bool) (tc : CallResult) s1 s2 s3 (credits : Bool),
      (event_generator_flow q fm tc s1 s2 s3 credits).2.2 = true →
      s1 ≠ none ∧ s2 ≠ none ∧ s3 ≠ none ∧ credits = true) := by
  refine ⟨fun q fm tc err => rfl, ?_, ?_, ?_⟩
  · intro q fm tc council r ids h
    cases council with
    | error e =>
      have h2 : (false : Bool) = true := congrArg (fun x => x.2.2) h
      cases h2
    | ok b =>
      simp only [send_message_flow] at h
      cases h
      exact ⟨b, rfl, rfl⟩
  · intro q fm tc s1 s2 s3 credits hfail
    cases s1 with
    | none =>
      refine ⟨?_, rfl⟩
      show List.count (SseEvent.errorEvent failureMsg)
        [SseEvent.stage1_start, SseEvent.errorEvent failureMsg] = 1
      decide
    | some p1 =>
      obtain ⟨r1, ids1⟩ := p1
      cases s2 with
      | none =>
        refine ⟨?_, rfl⟩
        show List.count (SseEvent.errorEvent failureMsg)
          [SseEvent.stage1_start, SseEvent.stage1_complete, SseEvent.stage2_start,
            SseEvent.errorEvent failureMsg] = 1
        decide
      | some p2 =>
        obtain ⟨r2, l2m2, ids2⟩ := p2
        cases s3 with
        | none =>
          refine ⟨?_, rfl⟩
          show List.count (SseEvent.errorEvent failureMsg)
            [SseEvent.stage1_start, SseEvent.stage1_complete, SseEvent.stage2_start,
              SseEvent.stage2_complete, SseEvent.stage3_start,
              SseEvent.errorEvent failureMsg] = 1
          decide
        | some p3 =>
          rcases hfail with h | h | h <;> exact absurd h (by simp)
  · intro q fm tc s1 s2 s3 credits h
    cases s1 with
    | none => cases h
    | some p1 =>
      obtain ⟨r1, ids1⟩ := p1
      cases s2 with
      | none => cases h
      | some p2 =>
        obtain ⟨r2, l2m2, ids2⟩ := p2
        cases s3 with
        | none => cases h
        | some p3 =>
          exact ⟨by simp, by simp, by simp, h⟩

/-- C9 witness: a run whose stage 1 fails emits exactly one error event
and performs no deduction. -/
theorem C9_no_charge_on_failure_witness :
    (event_generator_flow ("q") true CallResult.failure none none none true).1.count
      (SseEvent.errorEvent failureMsg) = 1 ∧
    (event_generator_flow ("q") true CallResult.failure none none none true).2.2 =
      false :=
  C9_no_charge_on_failure.2.2.1 ("q") true CallResult.failure none none none true
    (Or.inl rfl)

/-- C10: a failed title call never fails the pipeline: the title
generator substitutes the truncated question and discards the usage id
instead of raising, and a streaming run whose three stages succeed still
emits the synthesis and completion events, bills exactly the stage usage
ids (no title id), and emits the same events as a run whose title call
succeeded. -/
theorem C10_title_failure (q : String) (r1 : List MemberAnswer)
    (ids1 : List String) (r2 : List JudgeRanking)
    (l2m : List (String × String)) (ids2 : List String)
    (r3 : SynthesisResult) (id3 : Option String) (credits : Bool) :
    generate_conversation_title q CallResult.failure = (q.take 50, none) ∧
    SseEvent.stage3_complete ∈
      (event_generator_flow q true CallResult.failure (some (r1, ids1))
        (some (r2, l2m, ids2)) (some (r3, id3)) credits).1 ∧
    SseEvent.complete ∈
      (event_generator_flow q true CallResult.failure (some (r1, ids1))
        (some (r2, l2m, ids2)) (some (r3, id3)) credits).1 ∧
    (event_generator_flow q true CallResult.failure (some (r1, ids1))
        (some (r2, l2m, ids2)) (some (r3, id3)) credits).2.1 =
      ids1 ++ ids2 ++ id3.toList ∧
    (event_generator_flow q true CallResult.failure (some (r1, ids1))
        (some (r2, l2m, ids2)) (some (r3, id3)) credits).1 =
      (event_generator_flow q true (CallResult.success ("t") (some ("gid")))
        (some (r1, ids1)) (some (r2, l2m, ids2)) (some (r3, id3)) credits).1 := by
  refine ⟨rfl, ?_, ?_, ?_, rfl⟩
  · simp [event_generator_flow]
  · simp [event_generator_flow]
  · simp [event_generator_flow, generate_conversation_title]

end Quinthesis
